import Mathlib

/-!
# Verification of the `ts-helper` dependency analyser

A shallow embedding of `src/index.ts` of `glideapps/ts-helper`: the
configuration resolver (`readConfigFile`), the project graph builder
(`readProjects`), root-file assignment (`addRootFiles`), the project
scheduler (`processProjects`), the per-project dependency recorder
(`buildDependenciesForProject`), the syntax-tree import walk (`walk`), and
the cycle-detection tail of `main`.

Paths are opaque `String`s. JavaScript `Map`s become insertion-ordered
association lists `List (String × α)`; JavaScript `Set`s become
insertion-ordered duplicate-free `List String`. Fatal `assert` calls become
`Option`/`none` (the process aborts).
-/

namespace TsHelper

/-- Lookup in an insertion-ordered association list (JS `Map.get`). -/
def alookup {α : Type} : List (String × α) → String → Option α
  | [], _ => none
  | (k, v) :: rest, key => if k = key then some v else alookup rest key

/-- JS `Set.add`: append the element unless it is already present. -/
def listInsert (xs : List String) (x : String) : List String :=
  if x ∈ xs then xs else xs ++ [x]

/-! ## Configuration resolution (`readConfigFile`, lines 52–86)

A raw configuration file either has no `extends` field or extends one base
configuration. Compiler-option values are opaque strings. Reference paths
are already resolved strings (path arithmetic is delegated to `path.resolve`).
-/
/-- A raw on-disk configuration, as returned by `ts.readConfigFile`:
its own `compilerOptions` object, its own (resolved) `references` list,
and, in the `extended` case, the configuration named by `extends`. -/
inductive RawConfig where
  | simple (compilerOptions : List (String × String)) (references : List String)
  | extended (compilerOptions : List (String × String)) (references : List String)
      (base : RawConfig)

/-- JavaScript object spread `{...base, ...own}`: a key maps to `own`'s
value when `own` declares it, otherwise to `base`'s value. -/
def spread (base own : List (String × String)) : List (String × String) :=
  base.filter (fun kv => (alookup own kv.1).isNone) ++ own

/-- The part of `ProjectConfig` that `readConfigFile` computes and that the
inheritance claims are about. -/
structure ProjectConfig where
  compilerOptionsJSON : List (String × String)
  givenProjectReferences : List String
  deriving DecidableEq, Repr

/-- `readConfigFile` (lines 52–86): resolve the `extends` chain recursively;
inherited compiler options are taken first and the file's own options are
spread on top; the file's own references come first and inherited
references are appended. -/
def readConfigFile : RawConfig → ProjectConfig
  | .simple opts refs =>
      { compilerOptionsJSON := spread [] opts
        givenProjectReferences := refs }
  | .extended opts refs base =>
      let baseConfig := readConfigFile base
      { compilerOptionsJSON := spread baseConfig.compilerOptionsJSON opts
        givenProjectReferences := refs ++ baseConfig.givenProjectReferences }

/-- The spec's description of the merged options: "maps a key to the child's
value whenever the child declares that key, and to the nearest ancestor's
value otherwise" — lookup walks the `extends` chain from the child up. -/
def chainLookup : RawConfig → String → Option String
  | .simple opts _, k => alookup opts k
  | .extended opts _ base, k =>
      match alookup opts k with
      | some v => some v
      | none => chainLookup base k

/-! ## Projects, root-file assignment (`addRootFiles`, lines 157–172) -/
/-- JavaScript `String.prototype.startsWith`: a raw character-sequence
prefix test, with no path-component boundary requirement. -/
def strStartsWith (s p : String) : Bool :=
  p.data.isPrefixOf s.data

/-- The mutable part of a `ProjectInfo` that the registry-level algorithms
use: identity (`configPath`), project directory, back-edges from referencing
projects, and the growing root-file set. The registry itself is the list of
these in registration order (`projectInfos.values()`). -/
structure ProjInfo where
  configPath : String
  projectDir : String
  referencedFrom : List String
  rootFiles : List String
  deriving DecidableEq, Repr

/-- `project.rootFiles.add(file)` (line 165). -/
def addFileTo (p : ProjInfo) (file : String) : ProjInfo :=
  { p with rootFiles := listInsert p.rootFiles file }

/-- The body of the `addRootFiles` loop for one file (lines 162–170): scan
projects in registration order, add the file to the first whose
`projectDir` is a string prefix of the file, and `assert(found)` — modelled
as `none` — when no project matches. -/
def addRootFile (projects : List ProjInfo) (file : String) : Option (List ProjInfo) :=
  match projects with
  | [] => none
  | p :: rest =>
    if strStartsWith file p.projectDir then
      some (addFileTo p file :: rest)
    else
      (addRootFile rest file).map (fun ps => p :: ps)

/-- `addRootFiles` (lines 157–172): process each file in turn; the first
fatal assertion aborts the run. -/
def addRootFiles (projects : List ProjInfo) (files : List String) :
    Option (List ProjInfo) :=
  match files with
  | [] => some projects
  | f :: rest =>
    match addRootFile projects f with
    | none => none
    | some ps => addRootFiles ps rest

/-! ## Project graph builder (`readProjects`, lines 90–141)

A configuration entry point with its transitive references, as laid out on
disk. Each node carries its canonical configuration path (the result of
`ts.resolveProjectReferencePath`, external) and the configuration trees its
references resolve to. A diamond reference appears as the same subtree
occurring twice; a genuine configuration-reference cycle has no (finite)
representation, which matches the code: `readProjects` registers a project
only after reading all its references, so a reference cycle re-enters
`readProjects` before any registration and never terminates.
-/
inductive ConfigSource where
  | node (configPath : String) (refs : List ConfigSource)

/-- The canonical configuration path of an entry point. -/
def ConfigSource.path : ConfigSource → String
  | .node p _ => p

/-- The registry value stored per canonical configuration path: the
project's direct reference paths and the back-edge set of projects
referencing it. (The remaining `ProjectInfo` fields play no role in the
registry claims.) -/
structure ProjEntry where
  projectReferences : List String
  referencedFrom : List String
  deriving DecidableEq, Repr

/-- `r.referencedFrom.add(configPath)` (line 133) for the entry keyed by
`refPath`. -/
def addBackEdge (reg : List (String × ProjEntry)) (refPath fromPath : String) :
    List (String × ProjEntry) :=
  reg.map (fun kv =>
    if kv.1 = refPath then
      (kv.1, { kv.2 with referencedFrom := listInsert kv.2.referencedFrom fromPath })
    else kv)

/-- All canonical paths occurring in a list of configuration trees. -/
def pathsList : List ConfigSource → List String
  | [] => []
  | .node p refs :: rest => p :: (pathsList refs ++ pathsList rest)

/-- No configuration path recurs inside its own reference subtrees: the
acyclicity assumption under which every `readProjects` run terminates. -/
def acyclicList : List ConfigSource → Bool
  | [] => true
  | .node p refs :: rest =>
    (pathsList refs).all (fun q => q != p) && acyclicList refs && acyclicList rest

/-- Registration of a freshly built project (lines 120–134), given the
registry and reference paths produced by reading its references: the new
entry is appended (`projectInfos.set`, its reference paths collected into a
set) and then each referenced entry gains the back-edge. -/
def registerProject (cp : String)
    (r1 : List (String × ProjEntry) × List String) :
    List (String × ProjEntry) :=
  r1.2.foldl (fun r q => addBackEdge r q cp)
    (r1.1 ++ [(cp, ⟨r1.2.foldl listInsert [], []⟩)])

/-- `readProjects` over a work list of configuration trees, threading the
registry (`projectInfos`): an already-registered canonical path returns the
existing entry untouched (lines 95–98); otherwise all references are read
recursively first (line 108) and the new project is registered with its
back-edges (`registerProject`). Returns the registry and the canonical
paths of the processed trees. -/
def readProjectsList : List ConfigSource → List (String × ProjEntry) →
    List (String × ProjEntry) × List String
  | [], reg => (reg, [])
  | .node cp refs :: rest, reg =>
    match alookup reg cp with
    | some _ =>
      ((readProjectsList rest reg).1, cp :: (readProjectsList rest reg).2)
    | none =>
      ((readProjectsList rest (registerProject cp (readProjectsList refs reg))).1,
        cp :: (readProjectsList rest
          (registerProject cp (readProjectsList refs reg))).2)

/-- One `readProjects` call (lines 90–141): the updated registry and the
identity (canonical path) of the returned project. -/
def readProjects (c : ConfigSource) (reg : List (String × ProjEntry)) :
    List (String × ProjEntry) × String :=
  ((readProjectsList [c] reg).1, c.path)

/-! ## Dependency recording (`buildDependenciesForProject`, lines 195–292) -/
/-- The per-file classification of outgoing module dependencies: "regular"
imports, `import type`, and `await import`. -/
structure Imports where
  strong : List String
  typesOnly : List String
  lazy : List String
  deriving DecidableEq, Repr

/-- The per-file recording loop of `buildDependenciesForProject`
(lines 216–291): for each source file of the compilation unit, first assert
that it has not been recorded globally (line 221; violation is fatal,
modelled as `none`), then skip files that are out of scope (line 222), and
otherwise store the file's computed `Imports` in the global map
(line 290). Each file's walked `Imports` value is supplied as data; the
walk itself is modelled separately. -/
def recordSourceFiles (shouldInclude : String → Bool) :
    List (String × Imports) → List (String × Imports) →
    Option (List (String × Imports))
  | [], importedFiles => some importedFiles
  | (name, im) :: rest, importedFiles =>
    if (alookup importedFiles name).isSome then none
    else if shouldInclude name then
      recordSourceFiles shouldInclude rest (importedFiles ++ [(name, im)])
    else
      recordSourceFiles shouldInclude rest importedFiles

/-! ## Syntax-tree walk (`walk`, lines 230–280) -/
/-- An expression node as far as the walk inspects module specifiers and
call arguments: a string literal (`ts.SyntaxKind.StringLiteral`) or any
other expression. -/
inductive TsExpr where
  | stringLit (text : String)
  | nonLiteral
  deriving DecidableEq, Repr

/-- `node.importClause` of an import declaration, with its `isTypeOnly`
flag. -/
structure ImportClause where
  isTypeOnly : Bool
  deriving DecidableEq, Repr

/-- The fragment of the TypeScript AST that `walk` dispatches on: import
declarations (line 239), call expressions whose callee is the `import`
keyword (lines 249, 256), other call expressions, export declarations
naming an optional module (line 264), and every other node kind. Every
node carries its children, which the walk always visits (line 277). -/
inductive TsNode where
  | importDecl (importClause : Option ImportClause) (moduleSpecifier : TsExpr)
      (children : List TsNode)
  | importCall (arguments : List TsExpr) (children : List TsNode)
  | otherCall (arguments : List TsExpr) (children : List TsNode)
  | exportDecl (isTypeOnly : Bool) (moduleSpecifier : Option TsExpr)
      (children : List TsNode)
  | other (children : List TsNode)

/-- The three growing edge sets plus the warnings printed for non-literal
dynamic imports (line 261, tagged with the file name). -/
structure WalkState where
  imports : Imports
  warnings : List String
  deriving DecidableEq, Repr

/-- `addImport` (lines 230–235): resolve the module specifier with the
external resolver under the current compiler options; add the resolved
path to the given set only if resolution succeeded and the target is in
scope. -/
def addImport (resolveModule : String → Option String)
    (shouldInclude : String → Bool) (module : String) (s : List String) :
    List String :=
  match resolveModule module with
  | some f => if shouldInclude f then listInsert s f else s
  | none => s

/-- `typeOnly = node.importClause?.isTypeOnly === true` (line 244). -/
def clauseIsTypeOnly : Option ImportClause → Bool
  | some c => c.isTypeOnly
  | none => false

/-- The state update for one import declaration or re-export: add the
specifier to `typesOnly` when the type-only flag is set, else to `strong`
(lines 245–247 and 270–273). -/
def classifyImport (res : String → Option String) (si : String → Bool)
    (typeOnly : Bool) (text : String) (st : WalkState) : WalkState :=
  if typeOnly then
    { st with imports :=
      { st.imports with typesOnly := addImport res si text st.imports.typesOnly } }
  else
    { st with imports :=
      { st.imports with strong := addImport res si text st.imports.strong } }

/-- `walk` (lines 237–278) over a work list of sibling nodes: each node
contributes its own edge or warning, then its children (line 277), then its
following siblings. The two `assert(moduleSpecifier.kind === StringLiteral)`
calls (lines 243 and 268) are fatal, modelled as `none`. -/
def walkList (res : String → Option String) (si : String → Bool)
    (fileName : String) : List TsNode → WalkState → Option WalkState
  | [], st => some st
  | TsNode.importDecl clause spec children :: rest, st =>
    match spec with
    | TsExpr.nonLiteral => none
    | TsExpr.stringLit text =>
      match walkList res si fileName children
          (classifyImport res si (clauseIsTypeOnly clause) text st) with
      | none => none
      | some st2 => walkList res si fileName rest st2
  | TsNode.importCall args children :: rest, st =>
    match args with
    | [TsExpr.stringLit text] =>
      match walkList res si fileName children
          { st with imports :=
            { st.imports with lazy := addImport res si text st.imports.lazy } } with
      | none => none
      | some st2 => walkList res si fileName rest st2
    | [TsExpr.nonLiteral] =>
      match walkList res si fileName children
          { st with warnings := st.warnings ++ [fileName] } with
      | none => none
      | some st2 => walkList res si fileName rest st2
    | _ =>
      match walkList res si fileName children st with
      | none => none
      | some st2 => walkList res si fileName rest st2
  | TsNode.otherCall _ children :: rest, st =>
    match walkList res si fileName children st with
    | none => none
    | some st2 => walkList res si fileName rest st2
  | TsNode.exportDecl typeOnly spec children :: rest, st =>
    match spec with
    | none =>
      match walkList res si fileName children st with
      | none => none
      | some st2 => walkList res si fileName rest st2
    | some TsExpr.nonLiteral => none
    | some (TsExpr.stringLit text) =>
      match walkList res si fileName children
          (classifyImport res si typeOnly text st) with
      | none => none
      | some st2 => walkList res si fileName rest st2
  | TsNode.other children :: rest, st =>
    match walkList res si fileName children st with
    | none => none
    | some st2 => walkList res si fileName rest st2

/-! ## Scheduler (`processProjects`, lines 302–324)

`projectsDone` and the sequence of `buildDependenciesForProject` calls grow
in lockstep (both record `project.configPath` exactly when the project is
extracted), so a single insertion-ordered list `done` models both: read as a
set it is `projectsDone`, read as a list it is the extraction order.
-/
/-- One full pass of the inner `for` loop (lines 308–320): scan the
registry in order; skip projects already done and projects with a
not-yet-done referencing project; otherwise extract the project and mark it
done. -/
def scanOnce : List ProjInfo → List String → List String
  | [], done => done
  | p :: rest, done =>
    if p.configPath ∈ done then scanOnce rest done
    else if ∃ q ∈ p.referencedFrom, q ∉ done then scanOnce rest done
    else scanOnce rest (done ++ [p.configPath])

/-- The outer `for (;;)` loop (lines 305–323): repeat passes until one makes
no progress (`allDone`). The loop provably stops within
`projects.length + 1` passes, so that fuel bound makes the model total. -/
def processLoop (projects : List ProjInfo) : Nat → List String → List String
  | 0, done => done
  | fuel + 1, done =>
    let done2 := scanOnce projects done
    if done2.length = done.length then done
    else processLoop projects fuel done2

/-- `processProjects` (lines 302–324): the extraction order over the whole
run, starting from an empty done-set. -/
def processProjects (projects : List ProjInfo) : List String :=
  processLoop projects (projects.length + 1) []

/-- The scheduling invariant on an extraction order: whenever a project's
path sits at position `i`, every project referencing it was extracted at
some position before `i`. -/
def OrderRespects (projects : List ProjInfo) (done : List String) : Prop :=
  ∀ p ∈ projects, ∀ i : Fin done.length, done.get i = p.configPath →
    ∀ q ∈ p.referencedFrom, q ∈ done.take i.val

/-! ## Cycle detection (`main`, lines 395–429)

The graph library (`makeGraphFromEdges`, `getCycleNodesInGraph`,
`getCyclesInGraph` from `@glideapps/graphs`) is not part of this
repository; its behaviour is modelled from the spec below. What `main`
itself contributes — and what is embedded from the source — is the
adjacency handed to the library (strong edges only, line 417), the shortest
cycle selection (lines 423–424), and the order of the observable effects
(output write, stderr reporting, exit).
-/
/-- The adjacency handed to the graph library (line 417): one entry per
recorded file, its edges being exactly its strong-import set. -/
def strongAdjacency (importedFiles : List (String × Imports)) :
    List (String × List String) :=
  importedFiles.map (fun ni => (ni.1, ni.2.strong))

/-- One directed edge of the graph built from an adjacency list. -/
def strongEdge (adj : List (String × List String)) (a b : String) : Bool :=
  match alookup adj a with
  | some succs => decide (b ∈ succs)
  | none => false

/-- A walk: consecutive elements of `a :: l` are connected by edges. -/
def chainB (adj : List (String × List String)) : String → List String → Bool
  | _, [] => true
  | a, b :: rest => strongEdge adj a b && chainB adj b rest

/-- A nonempty node sequence following directed edges and returning to its
start. -/
def isCycleB (adj : List (String × List String)) : List String → Bool
  | [] => false
  | a :: rest => chainB adj a (rest ++ [a])

/-- Modelled from the spec: `getCyclesInGraph` (`@glideapps/graphs`, not in
this repository) — "enumerate all cycles among the implicated nodes".
Modelled as every duplicate-free cycle over the graph's nodes, enumerated
as the cyclic permutations of node subsets. -/
def allCycles (adj : List (String × List String)) : List (List String) :=
  ((adj.map Prod.fst).sublists.flatMap List.permutations').filter
    (fun c => isCycleB adj c)

/-- Modelled from the spec: the `getCycleNodesInGraph` decision
(`@glideapps/graphs`, not in this repository) — "determine whether any node
participates in a cycle". -/
def hasCycleB (adj : List (String × List String)) : Bool :=
  !(allCycles adj).isEmpty

/-- The spec's strong-edge relation over the raw file→Imports map: an edge
a → b exactly when b is in a's strong set. -/
def strongRel (m : List (String × Imports)) (a b : String) : Prop :=
  ∃ i, alookup m a = some i ∧ b ∈ i.strong

/-- The spec's notion of a cycle in "the directed graph whose edges are
exactly the strong sets": a nonempty file sequence chained by `strongRel`
and closing back on its first element. -/
def SpecStrongCycle (m : List (String × Imports)) : List String → Prop
  | [] => False
  | a :: rest => List.Chain (strongRel m) a (rest ++ [a])

/-- The 3-file strong cycle A→B→C→A of the claim. -/
def threeCycleMap : List (String × Imports) :=
  [("/s/A.ts", ⟨["/s/B.ts"], [], []⟩),
   ("/s/B.ts", ⟨["/s/C.ts"], [], []⟩),
   ("/s/C.ts", ⟨["/s/A.ts"], [], []⟩)]

/-- The three files of `threeCycleMap` with one designated edge
reclassified: `edgeIdx` picks the edge (0: A→B, 1: B→C, 2: C→A) and
`toLazy` picks the replacement class (`false`: type-only, `true`: lazy). -/
def threeCycleVariant (edgeIdx : Nat) (toLazy : Bool) :
    List (String × Imports) :=
  threeCycleMap.map (fun ni =>
    if ni.1 = (if edgeIdx = 0 then "/s/A.ts"
               else if edgeIdx = 1 then "/s/B.ts" else "/s/C.ts") then
      (ni.1, if toLazy then ⟨[], [], ni.2.strong⟩ else ⟨[], ni.2.strong, []⟩)
    else ni)

/-- The observable effects of the tail of `main` (lines 391–429): the
output-file write (lines 395–414, carrying the serialized entries, arrays
in discovery order), the two standard-error prints (lines 425–426), and
the process exit. -/
inductive Event where
  | writeOutput (entries : List (String × Imports))
  | printErrCycleCount (count : Nat)
  | printErrCycle (cycle : List String)
  | exited (code : Nat)
  deriving DecidableEq, Repr

/-- `Math.min(...cycles.map(c => c.length))` (line 423); only consulted
after the `assert(cycles.length > 0)` guard. -/
def minCycleLength (cycles : List (List String)) : Nat :=
  ((cycles.map List.length).min?).getD 0

/-- `cycles.find(c => c.length === shortestLength)` (line 424). -/
def shortestCycleOf (cycles : List (List String)) : Option (List String) :=
  cycles.find? (fun c => c.length == minCycleLength cycles)

/-- The output-file write of lines 395–414: one `writeOutput` effect when
an output path was given, none otherwise. -/
def outputEvents : Option String → List (String × Imports) → List Event
  | some _, m => [Event.writeOutput m]
  | none, _ => []

/-- The tail of `main` (lines 391–429) as an effect trace: first the
output file is written if requested (lines 395–414); only then, if cycle
detection is enabled, the detector runs on the strong-edge adjacency
(lines 416–419); on a cycle the count and one shortest cycle go to
standard error and the process exits 1 (lines 421–427), otherwise it exits
normally. `none` models the fatal asserts of lines 422 and 424. -/
def mainTail (outputFileName : Option String) (detectCycles : Bool)
    (importedFiles : List (String × Imports)) : Option (List Event) :=
  if detectCycles then
    if hasCycleB (strongAdjacency importedFiles) then
      if (allCycles (strongAdjacency importedFiles)).length = 0 then none
      else
        match shortestCycleOf (allCycles (strongAdjacency importedFiles)) with
        | none => none
        | some c =>
          some (outputEvents outputFileName importedFiles ++
            [Event.printErrCycleCount
                (allCycles (strongAdjacency importedFiles)).length,
              Event.printErrCycle c, Event.exited 1])
    else some (outputEvents outputFileName importedFiles ++ [Event.exited 0])
  else some (outputEvents outputFileName importedFiles ++ [Event.exited 0])

/-- A two-file mutual strong import: a 2-cycle. -/
def twoCycleMap : List (String × Imports) :=
  [("/s/a.ts", ⟨["/s/b.ts"], [], []⟩),
   ("/s/b.ts", ⟨["/s/a.ts"], [], []⟩)]

/-- A diamond of configuration references: `R` references `A` and `B`, and
both reference the same `L`. -/
def demoDiamond : List ConfigSource :=
  [ConfigSource.node "/r/R/tsconfig.json"
    [ConfigSource.node "/r/A/tsconfig.json"
      [ConfigSource.node "/r/L/tsconfig.json" []],
     ConfigSource.node "/r/B/tsconfig.json"
      [ConfigSource.node "/r/L/tsconfig.json" []]]]

/-- A two-project registry as `readProjects` would build it for
`app` referencing `core`: `core` is registered first (references are read
before the referencing project) and carries the back-edge from `app`. -/
def demoProjects : List ProjInfo :=
  [⟨"/repo/core/tsconfig.json", "/repo/core", ["/repo/app/tsconfig.json"], []⟩,
   ⟨"/repo/app/tsconfig.json", "/repo/app", [], []⟩]

theorem alookup_append {α : Type} (xs ys : List (String × α)) (k : String) :
    alookup (xs ++ ys) k =
      match alookup xs k with
      | some v => some v
      | none => alookup ys k := by
  induction xs with
  | nil => simp [alookup]
  | cons p rest ih =>
    by_cases h : p.1 = k
    · simp [alookup, h]
    · simp [alookup, h, ih]

theorem mem_listInsert (xs : List String) (x y : String) :
    y ∈ listInsert xs x ↔ y ∈ xs ∨ y = x := by
  unfold listInsert
  by_cases h : x ∈ xs
  · simp only [if_pos h]
    constructor
    · exact fun hy => Or.inl hy
    · rintro (hy | rfl)
      · exact hy
      · exact h
  · simp [if_neg h]

theorem alookup_filter_shadowed (own base : List (String × String)) (k : String) :
    alookup (base.filter (fun kv => (alookup own kv.1).isNone)) k =
      match alookup own k with
      | some _ => none
      | none => alookup base k := by
  induction base with
  | nil => cases h : alookup own k <;> simp [alookup, h]
  | cons p rest ih =>
    by_cases hk : p.1 = k
    · subst hk
      cases h : alookup own p.1 with
      | none => simp [List.filter, h, alookup]
      | some v => simp [List.filter, h, alookup, ih]
    · cases h : alookup own p.1 with
      | none => simpa [List.filter, h, alookup, hk] using ih
      | some v => simpa [List.filter, h, alookup, hk] using ih

theorem alookup_spread (base own : List (String × String)) (k : String) :
    alookup (spread base own) k =
      match alookup own k with
      | some v => some v
      | none => alookup base k := by
  unfold spread
  rw [alookup_append, alookup_filter_shadowed]
  cases h : alookup own k with
  | some v => simp
  | none => cases hb : alookup base k <;> simp [hb]

theorem scanOnce_prefix (todo : List ProjInfo) (done : List String) :
    ∃ new, scanOnce todo done = done ++ new := by
  induction todo generalizing done with
  | nil => exact ⟨[], by simp [scanOnce]⟩
  | cons p rest ih =>
    by_cases h1 : p.configPath ∈ done
    · simpa [scanOnce, h1] using ih done
    · by_cases h2 : ∃ q ∈ p.referencedFrom, q ∉ done
      · simpa [scanOnce, h1, h2] using ih done
      · obtain ⟨new, hnew⟩ := ih (done ++ [p.configPath])
        exact ⟨p.configPath :: new, by simp [scanOnce, h1, h2, hnew]⟩

theorem scanOnce_length_ge (todo : List ProjInfo) (done : List String) :
    done.length ≤ (scanOnce todo done).length := by
  obtain ⟨new, hnew⟩ := scanOnce_prefix todo done
  simp [hnew]

theorem scanOnce_mem_src (todo : List ProjInfo) (done : List String) :
    ∀ x ∈ scanOnce todo done, x ∈ done ∨ x ∈ todo.map ProjInfo.configPath := by
  induction todo generalizing done with
  | nil => intro x hx; exact Or.inl hx
  | cons p rest ih =>
    intro x hx
    by_cases h1 : p.configPath ∈ done
    · rcases ih done x (by simpa [scanOnce, h1] using hx) with h | h
      · exact Or.inl h
      · exact Or.inr (by simp [h])
    · by_cases h2 : ∃ q ∈ p.referencedFrom, q ∉ done
      · rcases ih done x (by simpa [scanOnce, h1, h2] using hx) with h | h
        · exact Or.inl h
        · exact Or.inr (by simp [h])
      · rcases ih (done ++ [p.configPath]) x (by simpa [scanOnce, h1, h2] using hx)
          with h | h
        · rcases List.mem_append.mp h with h' | h'
          · exact Or.inl h'
          · exact Or.inr (by simp at h'; simp [h'])
        · exact Or.inr (by simp [h])

theorem scanOnce_nodup (todo : List ProjInfo) (done : List String)
    (h : done.Nodup) : (scanOnce todo done).Nodup := by
  induction todo generalizing done with
  | nil => exact h
  | cons p rest ih =>
    by_cases h1 : p.configPath ∈ done
    · simpa [scanOnce, h1] using ih done h
    · by_cases h2 : ∃ q ∈ p.referencedFrom, q ∉ done
      · simpa [scanOnce, h1, h2] using ih done h
      · have : (done ++ [p.configPath]).Nodup := by
          simp [List.nodup_append, h, h1]
        simpa [scanOnce, h1, h2] using ih (done ++ [p.configPath]) this

theorem scanOnce_progress (todo : List ProjInfo) (done : List String)
    (p : ProjInfo) (hp : p ∈ todo) (hnot : p.configPath ∉ done)
    (helig : ∀ q ∈ p.referencedFrom, q ∈ done) :
    done.length < (scanOnce todo done).length := by
  induction todo generalizing done with
  | nil => cases hp
  | cons h rest ih =>
    by_cases h1 : h.configPath ∈ done
    · have hne : p ≠ h := fun he => hnot (he ▸ h1)
      have hp' : p ∈ rest := by
        rcases List.mem_cons.mp hp with he | hm
        · exact absurd he hne
        · exact hm
      simpa [scanOnce, h1] using ih done hp' hnot helig
    · by_cases h2 : ∃ q ∈ h.referencedFrom, q ∉ done
      · have hne : p ≠ h := by
          rintro rfl
          obtain ⟨q, hq, hqd⟩ := h2
          exact hqd (helig q hq)
        have hp' : p ∈ rest := by
          rcases List.mem_cons.mp hp with he | hm
          · exact absurd he hne
          · exact hm
        simpa [scanOnce, h1, h2] using ih done hp' hnot helig
      · have hle := scanOnce_length_ge rest (done ++ [h.configPath])
        have hlt : done.length < (done ++ [h.configPath]).length := by simp
        have hrw : scanOnce (h :: rest) done = scanOnce rest (done ++ [h.configPath]) := by
          simp [scanOnce, h1, h2]
        rw [hrw]
        exact Nat.lt_of_lt_of_le hlt hle

theorem orderRespects_append (projects : List ProjInfo) (done : List String)
    (p0 : ProjInfo) (hp0 : p0 ∈ projects)
    (hnodup : (projects.map ProjInfo.configPath).Nodup)
    (hresp : OrderRespects projects done)
    (helig : ∀ q ∈ p0.referencedFrom, q ∈ done) :
    OrderRespects projects (done ++ [p0.configPath]) := by
  intro p hp i hi q hq
  have hlen : i.val < done.length + 1 := by simpa using i.isLt
  by_cases hcase : i.val < done.length
  · have hget : (done ++ [p0.configPath]).get i = done.get ⟨i.val, hcase⟩ := by
      simp [List.getElem_append_left hcase]
    have htake : (done ++ [p0.configPath]).take i.val = done.take i.val :=
      List.take_append_of_le_length (Nat.le_of_lt hcase)
    rw [htake]
    exact hresp p hp ⟨i.val, hcase⟩ (by rw [← hget, hi]) q hq
  · have hival : i.val = done.length := by omega
    have hget : (done ++ [p0.configPath]).get i = p0.configPath := by
      simp [List.get_eq_getElem, hival]
    have hpp0 : p = p0 := by
      have := List.inj_on_of_nodup_map hnodup hp hp0
      exact this (by rw [← hi, hget])
    have htake : (done ++ [p0.configPath]).take i.val = done := by
      rw [hival, List.take_append_of_le_length (Nat.le_refl _), List.take_length]
    rw [htake]
    exact helig q (hpp0 ▸ hq)

theorem scanOnce_orderRespects (projects : List ProjInfo)
    (hnodup : (projects.map ProjInfo.configPath).Nodup) :
    ∀ todo, (∀ p ∈ todo, p ∈ projects) → ∀ done, OrderRespects projects done →
      OrderRespects projects (scanOnce todo done) := by
  intro todo
  induction todo with
  | nil => intro _ done hresp; exact hresp
  | cons p rest ih =>
    intro hsub done hresp
    have hsub' : ∀ x ∈ rest, x ∈ projects := fun x hx => hsub x (List.mem_cons_of_mem p hx)
    by_cases h1 : p.configPath ∈ done
    · simpa [scanOnce, h1] using ih hsub' done hresp
    · by_cases h2 : ∃ q ∈ p.referencedFrom, q ∉ done
      · simpa [scanOnce, h1, h2] using ih hsub' done hresp
      · have helig : ∀ q ∈ p.referencedFrom, q ∈ done := by
          intro q hq
          by_contra hqd
          exact h2 ⟨q, hq, hqd⟩
        have hresp' := orderRespects_append projects done p
          (hsub p (List.mem_cons_self p rest)) hnodup hresp helig
        simpa [scanOnce, h1, h2] using ih hsub' (done ++ [p.configPath]) hresp'

theorem processLoop_nodup (projects : List ProjInfo) (fuel : Nat)
    (done : List String) (h : done.Nodup) :
    (processLoop projects fuel done).Nodup := by
  induction fuel generalizing done with
  | zero => exact h
  | succ fuel ih =>
    simp only [processLoop]
    split
    · exact h
    · exact ih (scanOnce projects done) (scanOnce_nodup projects done h)

theorem processLoop_orderRespects (projects : List ProjInfo)
    (hnodup : (projects.map ProjInfo.configPath).Nodup) (fuel : Nat)
    (done : List String) (hresp : OrderRespects projects done) :
    OrderRespects projects (processLoop projects fuel done) := by
  induction fuel generalizing done with
  | zero => exact hresp
  | succ fuel ih =>
    simp only [processLoop]
    split
    · exact hresp
    · exact ih (scanOnce projects done)
        (scanOnce_orderRespects projects hnodup projects (fun _ hx => hx) done hresp)

/-- If some registered project is still undone, some registered project is
undone and eligible (all projects referencing it are done). The `rank`
function witnesses acyclicity of the reference relation. -/
theorem eligible_of_undone (projects : List ProjInfo)
    (hclosed : ∀ p ∈ projects, ∀ q ∈ p.referencedFrom,
      q ∈ projects.map ProjInfo.configPath)
    (rank : String → Nat)
    (hrank : ∀ p ∈ projects, ∀ q ∈ p.referencedFrom, rank q < rank p.configPath)
    (done : List String) :
    ∀ k, ∀ p ∈ projects, p.configPath ∉ done → rank p.configPath < k →
      ∃ p2, p2 ∈ projects ∧ p2.configPath ∉ done ∧
        ∀ q ∈ p2.referencedFrom, q ∈ done := by
  intro k
  induction k with
  | zero => intro p _ _ hk; omega
  | succ k ih =>
    intro p hp hund hk
    by_cases hall : ∀ q ∈ p.referencedFrom, q ∈ done
    · exact ⟨p, hp, hund, hall⟩
    · push_neg at hall
      obtain ⟨q, hq, hqd⟩ := hall
      obtain ⟨p2, hp2, hp2path⟩ := List.mem_map.mp (hclosed p hp q hq)
      have hqrank : rank q < rank p.configPath := hrank p hp q hq
      exact ih p2 hp2 (by rw [hp2path]; exact hqd) (by rw [hp2path]; omega)

theorem processLoop_complete (projects : List ProjInfo)
    (hclosed : ∀ p ∈ projects, ∀ q ∈ p.referencedFrom,
      q ∈ projects.map ProjInfo.configPath)
    (rank : String → Nat)
    (hrank : ∀ p ∈ projects, ∀ q ∈ p.referencedFrom, rank q < rank p.configPath) :
    ∀ fuel done, done.Nodup →
      (∀ x ∈ done, x ∈ projects.map ProjInfo.configPath) →
      (projects.map ProjInfo.configPath).length < fuel + done.length →
      ∀ p ∈ projects, p.configPath ∈ processLoop projects fuel done := by
  intro fuel
  induction fuel with
  | zero =>
    intro done hdn hdsub hlen p hp
    have := List.Subperm.length_le (List.subperm_of_subset hdn hdsub)
    omega
  | succ fuel ih =>
    intro done hdn hdsub hlen p hp
    simp only [processLoop]
    split
    case isTrue heq =>
      by_contra hund
      obtain ⟨p2, hp2, hund2, helig2⟩ :=
        eligible_of_undone projects hclosed rank hrank done
          (rank p.configPath + 1) p hp hund (by omega)
      have := scanOnce_progress projects done p2 hp2 hund2 helig2
      omega
    case isFalse hne =>
      have hge := scanOnce_length_ge projects done
      have hlen2 : (projects.map ProjInfo.configPath).length <
          fuel + (scanOnce projects done).length := by omega
      have hsub2 : ∀ x ∈ scanOnce projects done,
          x ∈ projects.map ProjInfo.configPath := by
        intro x hx
        rcases scanOnce_mem_src projects done x hx with h | h
        · exact hdsub x h
        · exact h
      exact ih (scanOnce projects done) (scanOnce_nodup projects done hdn)
        hsub2 hlen2 p hp

theorem indexOf_lt_of_mem_take {l : List String} {i : Nat} {q : String}
    (h : q ∈ l.take i) : l.indexOf q < i := by
  induction l generalizing i with
  | nil => simp at h
  | cons a rest ih =>
    cases i with
    | zero => simp at h
    | succ i =>
      rw [List.take_succ_cons] at h
      by_cases hqa : q = a
      · subst hqa
        simp [List.indexOf_cons_self]
      · rcases List.mem_cons.mp h with h' | h'
        · exact absurd h' hqa
        · have := ih h'
          rw [List.indexOf_cons_ne rest (fun he => hqa he.symm)]
          omega

/-- C4: for every `extends` chain of any depth, the merged compiler-options
payload produced by `readConfigFile` maps a key to the child's value
whenever the child declares that key, and to the nearest ancestor's value
otherwise (`chainLookup` walks the chain child-first), inheritance being
resolved depth-first before merging. -/
theorem readConfigFile_child_shadows_inherited (c : RawConfig) (k : String) :
    alookup (readConfigFile c).compilerOptionsJSON k = chainLookup c k := by
  induction c with
  | simple opts refs =>
    simp only [readConfigFile, chainLookup]
    rw [alookup_spread]
    cases h : alookup opts k <;> simp [alookup]
  | extended opts refs base ih =>
    simp only [readConfigFile, chainLookup]
    rw [alookup_spread]
    cases h : alookup opts k <;> simp [ih]

/-- C5: `addRootFile` is total with a fatal failure mode — for every path
and registry, either the path is added to the root-file set of exactly one
project (the first in registration order whose directory prefix-matches,
all other entries unchanged because only position `i` is overwritten), or
no registered directory prefixes the path and the call fails fatally
(`none`); no path is silently dropped. -/
theorem addRootFile_total (projects : List ProjInfo) (file : String) :
    (∃ i, ∃ h : i < projects.length,
      (∀ p ∈ projects.take i, strStartsWith file p.projectDir = false) ∧
      strStartsWith file (projects.get ⟨i, h⟩).projectDir = true ∧
      addRootFile projects file =
        some (projects.set i (addFileTo (projects.get ⟨i, h⟩) file))) ∨
    ((∀ p ∈ projects, strStartsWith file p.projectDir = false) ∧
      addRootFile projects file = none) := by
  induction projects with
  | nil => exact Or.inr ⟨by simp, rfl⟩
  | cons p rest ih =>
    cases hm : strStartsWith file p.projectDir with
    | true =>
      left
      exact ⟨0, by simp, by simp, by simpa using hm, by simp [addRootFile, hm]⟩
    | false =>
      rcases ih with ⟨i, h, hall, hfirst, heq⟩ | ⟨hall, heq⟩
      · left
        refine ⟨i + 1, by simpa using Nat.succ_lt_succ h, ?_, by simpa using hfirst, ?_⟩
        · intro q hq
          rw [List.take_succ_cons] at hq
          rcases List.mem_cons.mp hq with rfl | hq'
          · exact hm
          · exact hall q hq'
        · simp [addRootFile, hm, heq]
      · right
        refine ⟨?_, by simp [addRootFile, hm, heq]⟩
        intro q hq
        rcases List.mem_cons.mp hq with rfl | hq'
        · exact hm
        · exact hall q hq'

/-- C9: root-file ownership is a raw string-prefix test with no
path-separator boundary: whenever the head project's directory is a
character-for-character prefix of the file path, the file is claimed by
that project — `strStartsWith` imposes no component boundary, as the
witness with directory `/repo/app` and file `/repo/app-extra/x.ts` shows. -/
theorem addRootFile_raw_string_match (p : ProjInfo) (rest : List ProjInfo)
    (file : String) (h : strStartsWith file p.projectDir = true) :
    addRootFile (p :: rest) file = some (addFileTo p file :: rest) := by
  simp [addRootFile, h]

/-- Witness for C9: a project with directory `/repo/app` claims the file
`/repo/app-extra/x.ts` although `/repo/app` is not a whole path component
of it. -/
theorem addRootFile_raw_string_match_witness :
    addRootFile [⟨"/repo/app/tsconfig.json", "/repo/app", [], []⟩]
        "/repo/app-extra/x.ts" =
      some [⟨"/repo/app/tsconfig.json", "/repo/app", [],
        ["/repo/app-extra/x.ts"]⟩] := by
  have h := addRootFile_raw_string_match
    ⟨"/repo/app/tsconfig.json", "/repo/app", [], []⟩ [] "/repo/app-extra/x.ts"
    (by decide)
  simpa [addFileTo, listInsert] using h

theorem alookup_eq_none_iff {α : Type} (reg : List (String × α)) (k : String) :
    alookup reg k = none ↔ k ∉ reg.map Prod.fst := by
  induction reg with
  | nil => simp [alookup]
  | cons p rest ih =>
    by_cases h : p.1 = k
    · simp [alookup, h]
    · simp [alookup, h, ih, Ne.symm h]

theorem keys_addBackEdge (reg : List (String × ProjEntry)) (q f : String) :
    (addBackEdge reg q f).map Prod.fst = reg.map Prod.fst := by
  induction reg with
  | nil => rfl
  | cons p rest ih =>
    by_cases h : p.1 = q <;> simp [addBackEdge, h] <;>
      simpa [addBackEdge] using ih

theorem keys_foldl_addBackEdge (ps : List String) (f : String)
    (reg : List (String × ProjEntry)) :
    (ps.foldl (fun r q => addBackEdge r q f) reg).map Prod.fst =
      reg.map Prod.fst := by
  induction ps generalizing reg with
  | nil => rfl
  | cons q rest ih => simp [List.foldl_cons, ih, keys_addBackEdge]

theorem keys_registerProject (cp : String)
    (r1 : List (String × ProjEntry) × List String) :
    (registerProject cp r1).map Prod.fst = r1.1.map Prod.fst ++ [cp] := by
  unfold registerProject
  rw [keys_foldl_addBackEdge]
  simp

theorem readProjectsList_keys :
    ∀ (trees : List ConfigSource) (reg : List (String × ProjEntry)),
      (reg.map Prod.fst).Nodup → acyclicList trees = true →
      ((readProjectsList trees reg).1.map Prod.fst).Nodup ∧
      ∃ new, (readProjectsList trees reg).1.map Prod.fst =
          reg.map Prod.fst ++ new ∧
        ∀ x ∈ new, x ∈ pathsList trees := by
  intro trees reg
  induction trees, reg using readProjectsList.induct with
  | case1 reg =>
    intro hnd _
    exact ⟨by simpa [readProjectsList] using hnd, [],
      by simp [readProjectsList], by simp⟩
  | case2 cp refs rest reg e he ih =>
    intro hnd hac
    have hac' : acyclicList rest = true := by
      have h : (((pathsList refs).all (fun q => q != cp) &&
          acyclicList refs) && acyclicList rest) = true := by
        simpa only [acyclicList] using hac
      rw [Bool.and_eq_true] at h
      exact h.2
    obtain ⟨hnd2, new, hkeys, hsub⟩ := ih hnd hac'
    refine ⟨by simpa [readProjectsList, he] using hnd2,
      new, by simpa [readProjectsList, he] using hkeys, ?_⟩
    intro x hx
    simp only [pathsList, List.mem_cons, List.mem_append]
    exact Or.inr (Or.inr (hsub x hx))
  | case3 cp refs rest reg he ih1 ih2 =>
    intro hnd hac
    have hacs : (((pathsList refs).all (fun q => q != cp) &&
        acyclicList refs) && acyclicList rest) = true := by
      simpa only [acyclicList] using hac
    rw [Bool.and_eq_true, Bool.and_eq_true] at hacs
    have hcp : ∀ q ∈ pathsList refs, q ≠ cp := by
      simpa using hacs.1.1
    have hacrefs := hacs.1.2
    have hacrest := hacs.2
    obtain ⟨hnd1, new1, hkeys1, hsub1⟩ := ih1 hnd hacrefs
    have hcpnotin : cp ∉ ((readProjectsList refs reg).1.map Prod.fst) := by
      rw [hkeys1]
      intro hmem
      rcases List.mem_append.mp hmem with h | h
      · exact ((alookup_eq_none_iff reg cp).mp he) h
      · exact hcp cp (hsub1 cp h) rfl
    have hnd4 : ((registerProject cp (readProjectsList refs reg)).map
        Prod.fst).Nodup := by
      rw [keys_registerProject]
      rw [List.nodup_append]
      exact ⟨hnd1, List.nodup_singleton cp, by
        intro a ha hb
        simp at hb
        subst hb
        exact hcpnotin ha⟩
    obtain ⟨hnd2, new2, hkeys2, hsub2⟩ := ih2 hnd4 hacrest
    refine ⟨by simpa [readProjectsList, he] using hnd2, ?_⟩
    refine ⟨new1 ++ [cp] ++ new2, ?_, ?_⟩
    · have hfst : (readProjectsList (ConfigSource.node cp refs :: rest) reg).1 =
          (readProjectsList rest
            (registerProject cp (readProjectsList refs reg))).1 := by
        simp [readProjectsList, he]
      rw [hfst, hkeys2, keys_registerProject, hkeys1]
      simp
    · intro x hx
      simp only [pathsList, List.mem_cons, List.mem_append]
      rcases List.mem_append.mp hx with h | h
      · rcases List.mem_append.mp h with h' | h'
        · exact Or.inr (Or.inl (hsub1 x h'))
        · simp at h'
          exact Or.inl h'
      · exact Or.inr (Or.inr (hsub2 x h))

/-- C6: after any sequence of `readProjects` calls on an acyclic reference
configuration, the registry holds exactly one project per canonical
configuration path (its keys are duplicate-free), and calling `readProjects`
on a path whose canonical form is already registered returns the existing
project's identity and leaves the registry unchanged. -/
theorem readProjects_unique_and_memoized :
    (∀ (trees : List ConfigSource) (reg : List (String × ProjEntry)),
      (reg.map Prod.fst).Nodup → acyclicList trees = true →
      ((readProjectsList trees reg).1.map Prod.fst).Nodup) ∧
    (∀ (c : ConfigSource) (reg : List (String × ProjEntry)) (e : ProjEntry),
      alookup reg c.path = some e → readProjects c reg = (reg, c.path)) := by
  constructor
  · intro trees reg hnd hac
    exact (readProjectsList_keys trees reg hnd hac).1
  · intro c reg e he
    cases c with
    | node cp refs =>
      simp only [ConfigSource.path] at he
      simp [readProjects, readProjectsList, he, ConfigSource.path]

/-- Witness for C6: the diamond `R → A → L`, `R → B → L` registers each of
the four configurations exactly once, and re-reading `L` against a registry
that already holds it returns that registry untouched. -/
theorem readProjects_unique_and_memoized_witness :
    ((readProjectsList demoDiamond []).1.map Prod.fst).Nodup ∧
    readProjects (ConfigSource.node "/r/L/tsconfig.json" [])
        [("/r/L/tsconfig.json", ⟨[], ["/r/A/tsconfig.json"]⟩)] =
      ([("/r/L/tsconfig.json", ⟨[], ["/r/A/tsconfig.json"]⟩)],
        "/r/L/tsconfig.json") := by
  constructor
  · exact readProjects_unique_and_memoized.1 demoDiamond [] (by simp)
      (by simp [demoDiamond, acyclicList, pathsList])
  · exact readProjects_unique_and_memoized.2
      (ConfigSource.node "/r/L/tsconfig.json" [])
      [("/r/L/tsconfig.json", ⟨[], ["/r/A/tsconfig.json"]⟩)]
      ⟨[], ["/r/A/tsconfig.json"]⟩
      (by simp [ConfigSource.path, alookup])

/-- C7: the global file→Imports map keeps duplicate-free keys across any
sequence of recordings (so after a full run each source file is recorded at
most once), and an attempt to record a file already present in the map is a
fatal assertion failure (`none`), not a recoverable condition. -/
theorem recordSourceFiles_no_duplicate_keys :
    (∀ (si : String → Bool) (files imap m : List (String × Imports)),
      (imap.map Prod.fst).Nodup → recordSourceFiles si files imap = some m →
      (m.map Prod.fst).Nodup) ∧
    (∀ (si : String → Bool) (name : String) (im : Imports)
      (rest imap : List (String × Imports)),
      (alookup imap name).isSome = true →
      recordSourceFiles si ((name, im) :: rest) imap = none) := by
  constructor
  · intro si files
    induction files with
    | nil =>
      intro imap m hnd h
      simp only [recordSourceFiles, Option.some.injEq] at h
      subst h
      exact hnd
    | cons f rest ih =>
      intro imap m hnd h
      obtain ⟨name, im⟩ := f
      by_cases hdup : (alookup imap name).isSome
      · simp [recordSourceFiles, hdup] at h
      · rw [recordSourceFiles, if_neg hdup] at h
        by_cases hsi : si name = true
        case pos =>
          rw [if_pos hsi] at h
          refine ih (imap ++ [(name, im)]) m ?_ h
          have hnot : name ∉ imap.map Prod.fst := by
            rw [← alookup_eq_none_iff]
            exact Option.not_isSome_iff_eq_none.mp hdup
          simp only [List.map_append, List.map_cons, List.map_nil]
          rw [List.nodup_append]
          exact ⟨hnd, List.nodup_singleton name, by
            intro a ha hb
            simp at hb
            subst hb
            exact hnot ha⟩
        case neg =>
          rw [if_neg hsi] at h
          exact ih imap m hnd h
  · intro si name im rest imap h
    simp [recordSourceFiles, h]

/-- Witness for C7: recording two distinct files keeps the map keys
duplicate-free, and re-recording an already recorded file aborts fatally. -/
theorem recordSourceFiles_no_duplicate_keys_witness :
    (([("/s/a.ts", Imports.mk [] [] []), ("/s/b.ts", Imports.mk [] [] [])].map
      Prod.fst).Nodup) ∧
    recordSourceFiles (fun _ => true) [("/s/a.ts", Imports.mk [] [] [])]
      [("/s/a.ts", Imports.mk [] [] [])] = none := by
  constructor
  · exact recordSourceFiles_no_duplicate_keys.1 (fun _ => true)
      [("/s/a.ts", Imports.mk [] [] []), ("/s/b.ts", Imports.mk [] [] [])] []
      [("/s/a.ts", Imports.mk [] [] []), ("/s/b.ts", Imports.mk [] [] [])]
      (by simp) (by decide)
  · exact recordSourceFiles_no_duplicate_keys.2 (fun _ => true) "/s/a.ts"
      (Imports.mk [] [] []) [] [("/s/a.ts", Imports.mk [] [] [])] (by decide)

/-- C8: a single-argument dynamic-import call with a literal string
argument adds a lazy edge (the resolver succeeding and the target in
scope); with a non-literal argument the file name is logged as a warning,
no edge is produced for that call, and the walk continues with the rest of
the file in both cases (non-fatal). -/
theorem walk_dynamic_import_literal_vs_warning
    (res : String → Option String) (si : String → Bool) (fileName : String)
    (t f : String) (rest : List TsNode) (st : WalkState)
    (hres : res t = some f) (hsi : si f = true) :
    walkList res si fileName
        (TsNode.importCall [TsExpr.stringLit t] [] :: rest) st =
      walkList res si fileName rest
        { st with imports :=
          { st.imports with lazy := listInsert st.imports.lazy f } } ∧
    walkList res si fileName
        (TsNode.importCall [TsExpr.nonLiteral] [] :: rest) st =
      walkList res si fileName rest
        { st with warnings := st.warnings ++ [fileName] } := by
  constructor
  · simp [walkList, addImport, hres, hsi]
  · simp [walkList]

/-- Witness for C8: a resolvable literal dynamic import yields exactly one
lazy edge; a non-literal argument yields a warning, no edge, and a
successful (`some`) walk. -/
theorem walk_dynamic_import_literal_vs_warning_witness :
    walkList (fun m => if m = "./m" then some "/s/m.ts" else none)
        (fun _ => true) "/s/a.ts"
        [TsNode.importCall [TsExpr.stringLit "./m"] []]
        ⟨⟨[], [], []⟩, []⟩ = some ⟨⟨[], [], ["/s/m.ts"]⟩, []⟩ ∧
    walkList (fun m => if m = "./m" then some "/s/m.ts" else none)
        (fun _ => true) "/s/a.ts"
        [TsNode.importCall [TsExpr.nonLiteral] []]
        ⟨⟨[], [], []⟩, []⟩ = some ⟨⟨[], [], []⟩, ["/s/a.ts"]⟩ := by
  have h := walk_dynamic_import_literal_vs_warning
    (fun m => if m = "./m" then some "/s/m.ts" else none) (fun _ => true)
    "/s/a.ts" "./m" "/s/m.ts" [] ⟨⟨[], [], []⟩, []⟩ (by simp) rfl
  constructor
  · rw [h.1]
    simp [walkList, listInsert]
  · rw [h.2]
    simp [walkList]

/-- C10: a top-level import declaration with no import clause (a bare
side-effect import) is classified strong; the type-only classification
applies exactly when an import clause is present with `isTypeOnly` set. -/
theorem walk_bare_import_is_strong
    (res : String → Option String) (si : String → Bool) (fileName t : String)
    (rest : List TsNode) (st : WalkState) :
    (walkList res si fileName
        (TsNode.importDecl none (TsExpr.stringLit t) [] :: rest) st =
      walkList res si fileName rest
        { st with imports :=
          { st.imports with strong := addImport res si t st.imports.strong } }) ∧
    (∀ c : ImportClause, c.isTypeOnly = false →
      walkList res si fileName
          (TsNode.importDecl (some c) (TsExpr.stringLit t) [] :: rest) st =
        walkList res si fileName rest
          { st with imports :=
            { st.imports with strong := addImport res si t st.imports.strong } }) ∧
    (∀ c : ImportClause, c.isTypeOnly = true →
      walkList res si fileName
          (TsNode.importDecl (some c) (TsExpr.stringLit t) [] :: rest) st =
        walkList res si fileName rest
          { st with imports :=
            { st.imports with typesOnly := addImport res si t st.imports.typesOnly } }) := by
  refine ⟨?_, ?_, ?_⟩
  · simp [walkList, classifyImport, clauseIsTypeOnly]
  · intro c hc
    simp [walkList, classifyImport, clauseIsTypeOnly, hc]
  · intro c hc
    simp [walkList, classifyImport, clauseIsTypeOnly, hc]

/-- Witness for C10: `import "./m"` (no clause) produces a strong edge;
`import type ... from "./m"` produces a type-only edge. -/
theorem walk_bare_import_is_strong_witness :
    walkList (fun _ => some "/s/m.ts") (fun _ => true) "/s/a.ts"
        [TsNode.importDecl none (TsExpr.stringLit "./m") []]
        ⟨⟨[], [], []⟩, []⟩ = some ⟨⟨["/s/m.ts"], [], []⟩, []⟩ ∧
    walkList (fun _ => some "/s/m.ts") (fun _ => true) "/s/a.ts"
        [TsNode.importDecl (some ⟨true⟩) (TsExpr.stringLit "./m") []]
        ⟨⟨[], [], []⟩, []⟩ = some ⟨⟨[], ["/s/m.ts"], []⟩, []⟩ := by
  have h := walk_bare_import_is_strong (fun _ => some "/s/m.ts")
    (fun _ => true) "/s/a.ts" "./m" [] ⟨⟨[], [], []⟩, []⟩
  constructor
  · rw [h.1]
    simp [walkList, addImport, listInsert]
  · rw [h.2.2 ⟨true⟩ rfl]
    simp [walkList, addImport, listInsert]

theorem alookup_strongAdjacency (m : List (String × Imports)) (a : String) :
    alookup (strongAdjacency m) a = (alookup m a).map Imports.strong := by
  induction m with
  | nil => simp [strongAdjacency, alookup]
  | cons p rest ih =>
    by_cases h : p.1 = a
    · simp [strongAdjacency, alookup, h]
    · simpa [strongAdjacency, alookup, h] using ih

theorem strongEdge_iff_strongRel (m : List (String × Imports)) (a b : String) :
    strongEdge (strongAdjacency m) a b = true ↔ strongRel m a b := by
  rw [strongEdge, alookup_strongAdjacency]
  cases h : alookup m a with
  | none => simp [strongRel, h]
  | some i => simp [strongRel, h]

theorem chainB_iff_chain (adj : List (String × List String)) :
    ∀ (l : List String) (a : String),
      chainB adj a l = true ↔
        List.Chain (fun x y => strongEdge adj x y = true) a l := by
  intro l
  induction l with
  | nil => intro a; simp [chainB]
  | cons b rest ih =>
    intro a
    simp [chainB, List.chain_cons, ih b, Bool.and_eq_true]

theorem isCycleB_iff_specStrongCycle (m : List (String × Imports))
    (cyc : List String) :
    isCycleB (strongAdjacency m) cyc = true ↔ SpecStrongCycle m cyc := by
  cases cyc with
  | nil => simp [isCycleB, SpecStrongCycle]
  | cons a rest =>
    rw [isCycleB, SpecStrongCycle, chainB_iff_chain]
    constructor
    · intro h
      exact List.Chain.imp (fun x y hxy => (strongEdge_iff_strongRel m x y).mp hxy) h
    · intro h
      exact List.Chain.imp (fun x y hxy => (strongEdge_iff_strongRel m x y).mpr hxy) h

theorem getLastD_append_singleton (l : List String) (x d : String) :
    (l ++ [x]).getLastD d = x := by
  induction l generalizing d with
  | nil => rfl
  | cons b rest ih =>
    rw [List.cons_append, List.getLastD_cons]
    exact ih b

theorem chainB_append (adj : List (String × List String)) :
    ∀ (l1 l2 : List String) (a : String),
      chainB adj a (l1 ++ l2) =
        (chainB adj a l1 && chainB adj (l1.getLastD a) l2) := by
  intro l1
  induction l1 with
  | nil => intro l2 a; simp [chainB]
  | cons b rest ih =>
    intro l2 a
    rw [List.cons_append, chainB, chainB, ih, List.getLastD_cons, Bool.and_assoc]

theorem sublist_pair_decomp {x y : String} :
    ∀ {l : List String}, [x, y].Sublist l →
      ∃ p q r, l = p ++ x :: q ++ y :: r := by
  intro l
  induction l with
  | nil => intro h; simp at h
  | cons b rest ih =>
    intro h
    cases h with
    | cons _ h' =>
      obtain ⟨p, q, r, rfl⟩ := ih h'
      exact ⟨b :: p, q, r, rfl⟩
    | cons₂ _ h' =>
      have hy : y ∈ rest := h'.subset (by simp)
      obtain ⟨q, r, rfl⟩ := List.append_of_mem hy
      exact ⟨[], q, r, rfl⟩

theorem cycle_shrink (adj : List (String × List String)) {x : String}
    {p q r : List String} (a : String) (rest : List String)
    (hdecomp : a :: rest = p ++ x :: q ++ x :: r)
    (hwalk : chainB adj a (rest ++ [a]) = true) :
    isCycleB adj (x :: q) = true := by
  cases p with
  | nil =>
    rw [List.nil_append, List.cons_append] at hdecomp
    injection hdecomp with h1 h2
    subst h2
    rw [h1] at hwalk
    have hsplit : (q ++ x :: r) ++ [x] = (q ++ [x]) ++ (r ++ [x]) := by simp
    rw [hsplit, chainB_append, Bool.and_eq_true] at hwalk
    rw [isCycleB]
    exact hwalk.1
  | cons b p' =>
    rw [List.cons_append, List.cons_append] at hdecomp
    injection hdecomp with h1 h2
    subst h1
    subst h2
    have hsplit : ((p' ++ x :: q) ++ x :: r) ++ [a] =
        (p' ++ [x]) ++ ((q ++ [x]) ++ (r ++ [a])) := by simp
    rw [hsplit, chainB_append, Bool.and_eq_true] at hwalk
    have h2 := hwalk.2
    rw [getLastD_append_singleton, chainB_append, Bool.and_eq_true] at h2
    rw [isCycleB]
    exact h2.1

theorem exists_nodup_cycle (adj : List (String × List String)) :
    ∀ (n : Nat) (cyc : List String), cyc.length ≤ n →
      isCycleB adj cyc = true →
      ∃ c, isCycleB adj c = true ∧ c.Nodup := by
  intro n
  induction n with
  | zero =>
    intro cyc hlen hcyc
    cases cyc with
    | nil => simp [isCycleB] at hcyc
    | cons a rest => simp at hlen
  | succ n ih =>
    intro cyc hlen hcyc
    by_cases hnd : cyc.Nodup
    · exact ⟨cyc, hcyc, hnd⟩
    · cases cyc with
      | nil => simp [isCycleB] at hcyc
      | cons a rest =>
        rw [List.nodup_iff_sublist] at hnd
        push_neg at hnd
        obtain ⟨x, hx⟩ := hnd
        obtain ⟨p, q, r, hdecomp⟩ := sublist_pair_decomp hx
        rw [isCycleB] at hcyc
        have hshort := cycle_shrink adj a rest hdecomp hcyc
        refine ih (x :: q) ?_ hshort
        have hlen2 : (a :: rest).length = (p ++ x :: q ++ x :: r).length := by
          rw [hdecomp]
        simp only [List.length_cons, List.length_append] at hlen hlen2 ⊢
        omega

theorem cycle_nodes_have_out_edges (adj : List (String × List String)) :
    ∀ (l : List String) (a z : String), chainB adj a (l ++ [z]) = true →
      ∀ x ∈ a :: l, ∃ y, strongEdge adj x y = true := by
  intro l
  induction l with
  | nil =>
    intro a z h x hx
    rw [List.mem_singleton] at hx
    subst hx
    simp only [List.nil_append, chainB, Bool.and_eq_true] at h
    exact ⟨z, h.1⟩
  | cons b rest ih =>
    intro a z h x hx
    simp only [List.cons_append, chainB, Bool.and_eq_true] at h
    rcases List.mem_cons.mp hx with rfl | hx'
    · exact ⟨b, h.1⟩
    · exact ih b z h.2 x hx'

theorem edge_source_is_key (adj : List (String × List String)) (x y : String)
    (h : strongEdge adj x y = true) : x ∈ adj.map Prod.fst := by
  rw [strongEdge] at h
  cases he : alookup adj x with
  | none => rw [he] at h; simp at h
  | some succs =>
    by_contra hmem
    rw [← alookup_eq_none_iff] at hmem
    rw [hmem] at he
    cases he

theorem hasCycleB_iff_exists_cycle (adj : List (String × List String)) :
    hasCycleB adj = true ↔ ∃ cyc, isCycleB adj cyc = true := by
  constructor
  · intro h
    rw [hasCycleB, Bool.not_eq_true', List.isEmpty_eq_false_iff_exists_mem] at h
    obtain ⟨c, hc⟩ := h
    exact ⟨c, (List.mem_filter.mp hc).2⟩
  · intro ⟨cyc, hcyc⟩
    obtain ⟨c, hc, hnd⟩ := exists_nodup_cycle adj cyc.length cyc (Nat.le_refl _) hcyc
    have hkeys : ∀ x ∈ c, x ∈ adj.map Prod.fst := by
      cases c with
      | nil => simp [isCycleB] at hc
      | cons a rest =>
        rw [isCycleB] at hc
        intro x hx
        obtain ⟨y, hy⟩ := cycle_nodes_have_out_edges adj rest a a hc x hx
        exact edge_source_is_key adj x y hy
    obtain ⟨s, hperm, hsub⟩ := List.subperm_of_subset hnd hkeys
    rw [hasCycleB, Bool.not_eq_true', List.isEmpty_eq_false_iff_exists_mem]
    refine ⟨c, List.mem_filter.mpr ⟨?_, hc⟩⟩
    rw [List.mem_flatMap]
    exact ⟨s, List.mem_sublists.mpr hsub, List.mem_permutations'.mpr hperm.symm⟩

/-- C1: cycle detection operates only on strong-import edges. For every
file→Imports map, a cycle is detected iff one exists in the directed graph
whose edges are exactly the strong sets; for the 3-file all-strong cycle
A→B→C→A a cycle is detected and the selected shortest cycle has length 3;
with any one of the three edges instead classified type-only or lazy, no
cycle is detected. -/
theorem cycle_detection_strong_edges_only :
    (∀ m : List (String × Imports),
      hasCycleB (strongAdjacency m) = true ↔ ∃ cyc, SpecStrongCycle m cyc) ∧
    hasCycleB (strongAdjacency threeCycleMap) = true ∧
    (shortestCycleOf (allCycles (strongAdjacency threeCycleMap))).map
      List.length = some 3 ∧
    (∀ edgeIdx < 3, ∀ toLazy : Bool,
      hasCycleB (strongAdjacency (threeCycleVariant edgeIdx toLazy)) = false) := by
  refine ⟨?_, by decide, by decide, by decide⟩
  intro m
  rw [hasCycleB_iff_exists_cycle]
  constructor
  · rintro ⟨cyc, hcyc⟩
    exact ⟨cyc, (isCycleB_iff_specStrongCycle m cyc).mp hcyc⟩
  · rintro ⟨cyc, hcyc⟩
    exact ⟨cyc, (isCycleB_iff_specStrongCycle m cyc).mpr hcyc⟩

/-- Witness for C1: the detector fires on the all-strong 3-cycle and is
silent when the edge B→C is reclassified lazy. -/
theorem cycle_detection_strong_edges_only_witness :
    hasCycleB (strongAdjacency threeCycleMap) = true ∧
    hasCycleB (strongAdjacency (threeCycleVariant 1 true)) = false :=
  ⟨cycle_detection_strong_edges_only.2.1,
    cycle_detection_strong_edges_only.2.2.2 1 (by decide) true⟩

/-- Counterexample to C3 as stated: on a run with an output path given and
a 2-cycle present, the trace contains the output-file write (it precedes
cycle detection, lines 395–414 before 416–429), so the output file IS
written on a run that detects a cycle — while the cycle count, one
shortest cycle, and exit code 1 are reported as claimed. -/
theorem mainTail_writes_output_despite_cycle :
    mainTail (some "/out.json") true twoCycleMap =
      some [Event.writeOutput twoCycleMap, Event.printErrCycleCount 2,
        Event.printErrCycle ["/s/a.ts", "/s/b.ts"], Event.exited 1] ∧
    Event.writeOutput twoCycleMap ∈
      [Event.writeOutput twoCycleMap, Event.printErrCycleCount 2,
        Event.printErrCycle ["/s/a.ts", "/s/b.ts"], Event.exited 1] := by
  constructor
  · decide
  · decide

/-- C3 (amended): when cycle detection is enabled and a strong-import cycle
exists, the program prints the total number of cycles found and one cycle
of minimum length among the enumerated cycles to standard error, exits with
code 1, and writes nothing further after that point — but the output file
(when an output path is given) has already been written before cycle
detection runs, so it is written even on a run that detects a cycle. -/
theorem mainTail_cycle_reports_and_exits
    (m : List (String × Imports)) (out : String)
    (hdet : hasCycleB (strongAdjacency m) = true) :
    ∃ c, shortestCycleOf (allCycles (strongAdjacency m)) = some c ∧
      c ∈ allCycles (strongAdjacency m) ∧
      (∀ c2 ∈ allCycles (strongAdjacency m), c.length ≤ c2.length) ∧
      mainTail (some out) true m =
        some (Event.writeOutput m ::
          [Event.printErrCycleCount (allCycles (strongAdjacency m)).length,
            Event.printErrCycle c, Event.exited 1]) := by
  have hne : allCycles (strongAdjacency m) ≠ [] := by
    intro h
    rw [hasCycleB, h] at hdet
    simp at hdet
  have hlenne : (allCycles (strongAdjacency m)).map List.length ≠ [] := by
    simpa using hne
  obtain ⟨n, hn⟩ : ∃ n, ((allCycles (strongAdjacency m)).map List.length).min? =
      some n := by
    cases hm : ((allCycles (strongAdjacency m)).map List.length).min? with
    | none => exact absurd (List.min?_eq_none_iff.mp hm) hlenne
    | some n => exact ⟨n, rfl⟩
  have hmin := (List.min?_eq_some_iff (fun a => Nat.le_refl a)
    (fun a b => min_choice a b) (fun a b c => Nat.le_min)).mp hn
  have hminlen : minCycleLength (allCycles (strongAdjacency m)) = n := by
    rw [minCycleLength, hn]
    rfl
  obtain ⟨c0, hc0mem, hc0len⟩ := List.mem_map.mp hmin.1
  cases hf : shortestCycleOf (allCycles (strongAdjacency m)) with
  | none =>
    rw [shortestCycleOf, List.find?_eq_none] at hf
    exact absurd (by rw [hminlen, hc0len]; exact beq_self_eq_true n) (hf c0 hc0mem)
  | some c =>
    have hclen : c.length = n := by
      have := List.find?_some hf
      rw [hminlen] at this
      exact beq_iff_eq.mp this
    refine ⟨c, rfl, List.mem_of_find?_eq_some hf, ?_, ?_⟩
    · intro c2 hc2
      rw [hclen]
      exact hmin.2 c2.length (List.mem_map_of_mem List.length hc2)
    · have hlen0 : ¬ (allCycles (strongAdjacency m)).length = 0 := by
        simpa [List.length_eq_zero] using hne
      rw [mainTail, if_pos rfl, if_pos hdet, if_neg hlen0, hf]
      rfl

/-- Witness for the amended C3 on the concrete 2-cycle: the selected
shortest cycle, its minimality, and the full trace — output write first,
then the stderr reports, then exit 1. -/
theorem mainTail_cycle_reports_and_exits_witness :
    ∃ c, shortestCycleOf (allCycles (strongAdjacency twoCycleMap)) = some c ∧
      c ∈ allCycles (strongAdjacency twoCycleMap) ∧
      (∀ c2 ∈ allCycles (strongAdjacency twoCycleMap), c.length ≤ c2.length) ∧
      mainTail (some "/out.json") true twoCycleMap =
        some (Event.writeOutput twoCycleMap ::
          [Event.printErrCycleCount
              (allCycles (strongAdjacency twoCycleMap)).length,
            Event.printErrCycle c, Event.exited 1]) :=
  mainTail_cycle_reports_and_exits twoCycleMap "/out.json" (by decide)

/-- C2: for every pair of registered projects P and Q where Q is in P's
referenced-from set, the extraction of P happens strictly after the
extraction of Q in the run sequence produced by `processProjects`, and every
registered project is extracted exactly once. The hypotheses state what
`readProjects` guarantees for any registry it builds: configuration paths
are unique, every back-edge names a registered project, and the reference
relation is acyclic (witnessed by a rank function). -/
theorem processProjects_referencing_extracted_first
    (projects : List ProjInfo)
    (hnodup : (projects.map ProjInfo.configPath).Nodup)
    (hclosed : ∀ p ∈ projects, ∀ q ∈ p.referencedFrom,
      q ∈ projects.map ProjInfo.configPath)
    (rank : String → Nat)
    (hrank : ∀ p ∈ projects, ∀ q ∈ p.referencedFrom, rank q < rank p.configPath) :
    (∀ p ∈ projects, (processProjects projects).count p.configPath = 1) ∧
    (∀ p ∈ projects, ∀ q ∈ p.referencedFrom,
      (processProjects projects).indexOf q <
        (processProjects projects).indexOf p.configPath) := by
  have hcomp : ∀ p ∈ projects, p.configPath ∈ processProjects projects := by
    intro p hp
    exact processLoop_complete projects hclosed rank hrank
      (projects.length + 1) [] List.nodup_nil (by simp) (by simp) p hp
  have hnd : (processProjects projects).Nodup :=
    processLoop_nodup projects (projects.length + 1) [] List.nodup_nil
  have hresp : OrderRespects projects (processProjects projects) := by
    apply processLoop_orderRespects projects hnodup
    intro p hp i hi q hq
    exact absurd i.isLt (by simp)
  refine ⟨fun p hp => List.count_eq_one_of_mem hnd (hcomp p hp), ?_⟩
  intro p hp q hq
  have hmem := hcomp p hp
  have hilt : (processProjects projects).indexOf p.configPath <
      (processProjects projects).length := List.indexOf_lt_length.mpr hmem
  have hget : (processProjects projects).get
      ⟨(processProjects projects).indexOf p.configPath, hilt⟩ = p.configPath :=
    List.indexOf_get hilt
  have htake := hresp p hp
    ⟨(processProjects projects).indexOf p.configPath, hilt⟩ hget q hq
  exact indexOf_lt_of_mem_take htake

/-- Witness for C2 on the two-project registry: `app` (which references
`core`) is extracted before `core`, and each exactly once. -/
theorem processProjects_referencing_extracted_first_witness :
    (processProjects demoProjects).count "/repo/core/tsconfig.json" = 1 ∧
    (processProjects demoProjects).indexOf "/repo/app/tsconfig.json" <
      (processProjects demoProjects).indexOf "/repo/core/tsconfig.json" := by
  have h := processProjects_referencing_extracted_first demoProjects
    (by decide) (by decide)
    (fun s => if s = "/repo/app/tsconfig.json" then 0 else 1) (by decide)
  exact ⟨h.1 ⟨"/repo/core/tsconfig.json", "/repo/core",
      ["/repo/app/tsconfig.json"], []⟩ (by decide),
    h.2 ⟨"/repo/core/tsconfig.json", "/repo/core",
      ["/repo/app/tsconfig.json"], []⟩ (by decide)
      "/repo/app/tsconfig.json" (by decide)⟩

end TsHelper
